import Mathlib

/-! Formal model of the repo2docx file-inclusion pipeline (src/index.js).
JS strings are modelled as lists of characters; each JS helper of the
source file becomes an executable Lean function of the same name, and the
per-entry loop of repo2docx becomes an explicit fold over the entry list. -/

namespace Repo2Docx

/-- Result record of parseRepoIdentifier (src/index.js lines 22-48). -/
structure RepoRef where
  owner : List Char
  repo : List Char
deriving DecidableEq

/-- Prepend a character to the first group of a split result. -/
def consHead (c : Char) : List (List Char) → List (List Char)
  | [] => [[c]]
  | l :: ls => (c :: l) :: ls

/-- JS String.split with a single separator character: always returns at
least one (possibly empty) group, as in JS. -/
def splitOnChar (sep : Char) : List Char → List (List Char)
  | [] => [[]]
  | c :: cs =>
    if c = sep then [] :: splitOnChar sep cs
    else consHead c (splitOnChar sep cs)

/-- One of the four strings the anchored regex on src/index.js line 27 can
consume: https scheme with www. -/
def scheme1 : List Char := "https://www.github.com/".toList

/-- The https scheme without www. -/
def scheme2 : List Char := "https://github.com/".toList

/-- The http scheme with www. -/
def scheme3 : List Char := "http://www.github.com/".toList

/-- The http scheme without www. -/
def scheme4 : List Char := "http://github.com/".toList

/-- Embeds the replace on src/index.js line 27: the regex is anchored at
the start, so it removes exactly one of the four scheme+host spellings
when the string starts with it, and otherwise leaves the string alone. -/
def dropUrlScheme (s : List Char) : List Char :=
  if scheme1.isPrefixOf s then s.drop scheme1.length
  else if scheme2.isPrefixOf s then s.drop scheme2.length
  else if scheme3.isPrefixOf s then s.drop scheme3.length
  else if scheme4.isPrefixOf s then s.drop scheme4.length
  else s

/-- Embeds the replace on src/index.js line 28: the regex is anchored at
the end, so it removes one trailing ".git" occurrence when present. -/
def dropGitSuffix (s : List Char) : List Char :=
  if (".git".toList).isSuffixOf s then s.take (s.length - 4) else s

/-- JS String.includes: the pattern occurs contiguously somewhere. -/
def containsSeq (pat : List Char) : List Char → Bool
  | [] => pat.isEmpty
  | c :: cs => pat.isPrefixOf (c :: cs) || containsSeq pat cs

/-- parseRepoIdentifier (src/index.js lines 22-48). Throwing the invalid
identifier error is modelled as returning none. JS truthiness of the
destructured owner and repo strings is nonemptiness; a missing second
split component is undefined in JS, which is falsy like the empty string,
so both are rendered as the default []. -/
def parseRepoIdentifier (s : List Char) : Option RepoRef :=
  if containsSeq ("github.com".toList) s then
    if 2 ≤ (splitOnChar '/' (dropGitSuffix (dropUrlScheme s))).length then
      some ⟨(splitOnChar '/' (dropGitSuffix (dropUrlScheme s))).headD [],
        ((splitOnChar '/' (dropGitSuffix (dropUrlScheme s))).drop 1).headD []⟩
    else none
  else if ('/' : Char) ∈ s then
    if (splitOnChar '/' s).headD [] ≠ [] ∧ ((splitOnChar '/' s).drop 1).headD [] ≠ [] then
      some ⟨(splitOnChar '/' s).headD [], ((splitOnChar '/' s).drop 1).headD []⟩
    else none
  else none

/-- The null character counted by the regex on src/index.js line 57. -/
def nullChar : Char := Char.ofNat 0

/-- The null-byte ratio computed on src/index.js line 57, as an exact
rational instead of an IEEE double; for every string short enough to
exist the double comparison against 0.01 agrees with the exact one. -/
def nullByteRatio (content : List Char) : ℚ :=
  (content.count nullChar : ℚ) / (content.length : ℚ)

/-- isValidTextContent (src/index.js lines 55-59). For empty content the
JS division yields NaN and NaN is not less than 0.01, so the function
returns false; the embedding renders that comparison outcome as an
explicit emptiness guard around the exact rational comparison. -/
def isValidTextContent (content : List Char) : Bool :=
  if content.length = 0 then false
  else decide (nullByteRatio content < 1 / 100)

/-- The split on src/index.js line 68: the separator regex eats one
newline together with an immediately preceding carriage return, while a
carriage return not followed by a newline is ordinary text. -/
def splitLines : List Char → List (List Char)
  | [] => [[]]
  | '\n' :: cs => [] :: splitLines cs
  | '\r' :: '\n' :: cs => [] :: splitLines cs
  | c :: cs => consHead c (splitLines cs)

/-- addFileContent (src/index.js lines 66-77), returning the paragraph
texts it pushes: one per line, an empty line becoming a single space. -/
def addFileContent (content : List Char) : List (List Char) :=
  (splitLines content).map (fun line => if line = [] then [' '] else line)

/-- The binaryExtensions constant of isBinaryFile (src/index.js 85-114). -/
def binaryExtensions : List (List Char) :=
  [".jpg".toList, ".jpeg".toList, ".png".toList, ".gif".toList, ".bmp".toList,
   ".ico".toList, ".pdf".toList, ".exe".toList, ".dll".toList, ".so".toList,
   ".dylib".toList, ".zip".toList, ".tar".toList, ".gz".toList, ".rar".toList,
   ".7z".toList, ".mp3".toList, ".mp4".toList, ".avi".toList, ".mov".toList,
   ".mpg".toList, ".ttf".toList, ".woff".toList, ".class".toList, ".pyc".toList,
   ".pyd".toList, ".o".toList, ".obj".toList]

/-- isBinaryFile (src/index.js lines 84-117): lowercase the filename and
test whether any listed extension is a suffix of it. Char.toLower agrees
with the JS lowercasing on the ASCII characters the extensions use. -/
def isBinaryFile (filename : List Char) : Bool :=
  binaryExtensions.any (fun ext => ext.isSuffixOf (filename.map Char.toLower))

/-- Character-level glob match inside one path segment: star matches any
run of characters of the segment, the question mark one character. -/
def matchSeg : List Char → List Char → Bool
  | [], s => s.isEmpty
  | p :: ps, s =>
    if p = '*' then
      match s with
      | [] => matchSeg ps []
      | c0 :: cs => matchSeg ps (c0 :: cs) || matchSeg (p :: ps) cs
    else
      match s with
      | [] => false
      | c0 :: cs => (p == '?' || p == c0) && matchSeg ps cs
termination_by p s => (p.length, s.length)

/-- Segment-level glob match: a double-star segment matches any number of
whole path segments, any other pattern segment must match one segment. -/
def matchSegs : List (List Char) → List (List Char) → Bool
  | [], ss => ss.isEmpty
  | p :: ps, ss =>
    if p = ['*', '*'] then
      match ss with
      | [] => matchSegs ps []
      | s0 :: ss2 => matchSegs ps (s0 :: ss2) || matchSegs (p :: ps) ss2
    else
      match ss with
      | [] => false
      | s0 :: ss2 => matchSeg p s0 && matchSegs ps ss2
termination_by p s => (p.length, s.length)

/-- Modelled from the spec: the repository calls the external minimatch
library (src/index.js line 141) with the matchBase option, which is not
part of this repository. Per the spec, a pattern is matched with
shell-glob semantics where a double star crosses path separators, a
single star stays inside one segment, and a pattern without a slash is
matched against the final path segment alone. -/
def minimatch (filePath pattern : List Char) : Bool :=
  if ('/' : Char) ∈ pattern then
    matchSegs (splitOnChar '/' pattern) (splitOnChar '/' filePath)
  else
    matchSeg pattern ((splitOnChar '/' filePath).getLastD [])

/-- shouldIgnorePath (src/index.js lines 139-146): the loop with early
return true is the list-any of the per-pattern match. -/
def shouldIgnorePath (filePath : List Char) (ignorePatterns : List (List Char)) : Bool :=
  ignorePatterns.any (fun pattern => minimatch filePath pattern)

/-- JS String.replace with a plain string pattern and empty replacement:
removes the first occurrence of the pattern, if any. Used on
src/index.js line 334 to strip the archive root directory. -/
def replaceFirst (pat : List Char) : List Char → List Char
  | [] => []
  | c :: cs =>
    if pat.isPrefixOf (c :: cs) then (c :: cs).drop pat.length
    else c :: replaceFirst pat cs

/-- The clean path of src/index.js line 334: the entry name with the
first occurrence of "repo-branch/" removed. -/
def cleanPathOf (repo branch name : List Char) : List Char :=
  replaceFirst (repo ++ ('-' :: branch) ++ ['/']) name

/-- One archive entry as the walk on src/index.js lines 331-405 sees it:
a name, a directory flag, and the result of extracting and decoding the
content, where an extraction exception is the error case. -/
structure ZipEntry where
  entryName : List Char
  isDirectory : Bool
  getData : Except Unit (List Char)

/-- ClassificationVerdict: the five per-entry outcomes of the walk. -/
inductive Verdict where
  | included
  | skippedByIgnore
  | skippedAsBinary
  | skippedAsInvalidText
  | skippedByError
deriving DecidableEq

/-- The five counters of src/index.js lines 322-326. -/
structure WalkCounts where
  processedFiles : Nat
  skippedFilesByIgnore : Nat
  skippedFilesByBinary : Nat
  skippedFilesByValidation : Nat
  skippedFilesByError : Nat
deriving DecidableEq

/-- Increment the one counter belonging to a verdict. -/
def bump (c : WalkCounts) : Verdict → WalkCounts
  | .included =>
    ⟨c.processedFiles + 1, c.skippedFilesByIgnore, c.skippedFilesByBinary,
     c.skippedFilesByValidation, c.skippedFilesByError⟩
  | .skippedByIgnore =>
    ⟨c.processedFiles, c.skippedFilesByIgnore + 1, c.skippedFilesByBinary,
     c.skippedFilesByValidation, c.skippedFilesByError⟩
  | .skippedAsBinary =>
    ⟨c.processedFiles, c.skippedFilesByIgnore, c.skippedFilesByBinary + 1,
     c.skippedFilesByValidation, c.skippedFilesByError⟩
  | .skippedAsInvalidText =>
    ⟨c.processedFiles, c.skippedFilesByIgnore, c.skippedFilesByBinary,
     c.skippedFilesByValidation + 1, c.skippedFilesByError⟩
  | .skippedByError =>
    ⟨c.processedFiles, c.skippedFilesByIgnore, c.skippedFilesByBinary,
     c.skippedFilesByValidation, c.skippedFilesByError + 1⟩

/-- Sum of the five counters. -/
def totalCount (c : WalkCounts) : Nat :=
  c.processedFiles + c.skippedFilesByIgnore + c.skippedFilesByBinary +
    c.skippedFilesByValidation + c.skippedFilesByError

/-- The body of the per-entry walk of repo2docx (src/index.js 331-405)
for one non-directory entry: ignore check, binary-extension check, then
inside the try block extraction and the text-validity check. Returns the
verdict and, for an included entry, the emitted document section as the
pair of clean path and paragraph texts. -/
def processEntry (patterns : List (List Char)) (repo branch : List Char)
    (e : ZipEntry) : Verdict × Option (List Char × List (List Char)) :=
  let cleanPath := cleanPathOf repo branch e.entryName
  if shouldIgnorePath cleanPath patterns then (Verdict.skippedByIgnore, none)
  else if isBinaryFile cleanPath then (Verdict.skippedAsBinary, none)
  else
    match e.getData with
    | Except.error _ => (Verdict.skippedByError, none)
    | Except.ok content =>
      if isValidTextContent content then
        (Verdict.included, some (cleanPath, addFileContent content))
      else (Verdict.skippedAsInvalidText, none)

/-- The whole walk of src/index.js lines 331-405: directories are passed
over untouched, every other entry is classified, its counter bumped, and
the included sections are emitted in entry order. -/
def processEntries (patterns : List (List Char)) (repo branch : List Char) :
    List ZipEntry → WalkCounts × List (List Char × List (List Char))
  | [] => (⟨0, 0, 0, 0, 0⟩, [])
  | e :: rest =>
    let r := processEntries patterns repo branch rest
    if e.isDirectory then r
    else
      let pr := processEntry patterns repo branch e
      (bump r.1 pr.1, pr.2.toList ++ r.2)

/-- Splitting a separator-free list yields the single group. -/
theorem splitOnChar_of_not_mem (sep : Char) :
    ∀ (a : List Char), sep ∉ a → splitOnChar sep a = [a] := by
  intro a
  induction a with
  | nil => intro _; rfl
  | cons c cs ih =>
    intro h
    have hc : c ≠ sep := by rintro rfl; exact h (List.mem_cons_self _ _)
    have hcs : sep ∉ cs := fun hm => h (List.mem_cons_of_mem _ hm)
    simp [splitOnChar, hc, ih hcs, consHead]

/-- Splitting peels off a leading separator-free group. -/
theorem splitOnChar_append (sep : Char) :
    ∀ (a b : List Char), sep ∉ a →
      splitOnChar sep (a ++ sep :: b) = a :: splitOnChar sep b := by
  intro a
  induction a with
  | nil => intro b _; simp [splitOnChar]
  | cons c cs ih =>
    intro b h
    have hc : c ≠ sep := by rintro rfl; exact h (List.mem_cons_self _ _)
    have hcs : sep ∉ cs := fun hm => h (List.mem_cons_of_mem _ hm)
    simp [splitOnChar, hc, ih b hcs, consHead]

/-- A list is a boolean prefix of itself followed by anything. -/
theorem isPrefixOf_self_append : ∀ (p t : List Char), p.isPrefixOf (p ++ t) = true := by
  intro p t
  induction p with
  | nil => simp
  | cons q qs ih => simp [List.isPrefixOf, ih]

/-- A boolean prefix has at most as many copies of any character. -/
theorem isPrefixOf_count_le (x : Char) :
    ∀ (p s : List Char), p.isPrefixOf s = true → List.count x p ≤ List.count x s := by
  intro p
  induction p with
  | nil => intro s _; simp
  | cons q qs ih =>
    intro s hp
    cases s with
    | nil => simp [List.isPrefixOf] at hp
    | cons y ys =>
      simp only [List.isPrefixOf, Bool.and_eq_true, beq_iff_eq] at hp
      obtain ⟨hqy, hrest⟩ := hp
      subst hqy
      simp only [List.count_cons]
      exact Nat.add_le_add_right (ih ys hrest) _

/-- Extending a non-match by a character absent from the pattern cannot
create a boolean prefix match. -/
theorem isPrefixOf_append_cons_false (c : Char) :
    ∀ (p a b : List Char), p.isPrefixOf a = false → c ∉ p →
      p.isPrefixOf (a ++ c :: b) = false := by
  intro p
  induction p with
  | nil =>
    intro a b hp _
    rw [List.isPrefixOf_nil_left] at hp
    exact absurd hp (by simp)
  | cons q qs ih =>
    intro a b hp hc
    have hcq : q ≠ c := by rintro rfl; exact hc (List.mem_cons_self _ _)
    have hcqs : c ∉ qs := fun hm => hc (List.mem_cons_of_mem _ hm)
    cases a with
    | nil => simp [List.isPrefixOf, hcq]
    | cons y ys =>
      cases hqy : (q == y) with
      | false => simp [List.isPrefixOf, hqy]
      | true =>
        have hp2 : qs.isPrefixOf ys = false := by
          simpa [List.isPrefixOf, hqy] using hp
        simp [List.isPrefixOf, hqy, ih ys b hp2 hcqs]

/-- A list is a boolean suffix of anything followed by itself. -/
theorem isSuffixOf_self_append (g a : List Char) : g.isSuffixOf (a ++ g) = true := by
  unfold List.isSuffixOf
  rw [List.reverse_append]
  exact isPrefixOf_self_append _ _

/-- A repo segment that does not end in ".git" keeps the whole
owner-slash-repo string from ending in ".git". -/
theorem gitSuffix_append_false (owner repo : List Char)
    (h : (".git".toList).isSuffixOf repo = false) :
    (".git".toList).isSuffixOf (owner ++ '/' :: repo) = false := by
  unfold List.isSuffixOf at h ⊢
  rw [List.reverse_append, List.reverse_cons, List.append_assoc, List.singleton_append]
  exact isPrefixOf_append_cons_false '/' _ _ _ h (by decide)

/-- A string with fewer than three slashes starts with none of the four
scheme+host spellings, so the anchored scheme regex removes nothing. -/
theorem dropUrlScheme_noop (s : List Char) (h : List.count '/' s < 3) :
    dropUrlScheme s = s := by
  have key : ∀ p : List Char, List.count '/' p = 3 → p.isPrefixOf s = false := by
    intro p hp3
    cases hp : p.isPrefixOf s with
    | false => rfl
    | true =>
      have := isPrefixOf_count_le '/' p s hp
      omega
  unfold dropUrlScheme
  rw [key scheme1 (by decide), key scheme2 (by decide),
    key scheme3 (by decide), key scheme4 (by decide)]
  simp

/-- The scheme regex removes a leading https-www spelling. -/
theorem dropUrlScheme_append1 (rest : List Char) :
    dropUrlScheme (scheme1 ++ rest) = rest := by
  unfold dropUrlScheme
  rw [isPrefixOf_self_append]
  simp [List.drop_left]

/-- The scheme regex removes a leading https spelling. -/
theorem dropUrlScheme_append2 (rest : List Char) :
    dropUrlScheme (scheme2 ++ rest) = rest := by
  unfold dropUrlScheme
  have h1 : scheme1.isPrefixOf (scheme2 ++ rest) = false := rfl
  rw [h1, isPrefixOf_self_append]
  simp [List.drop_left]

/-- The trailing ".git" regex removes an actual trailing ".git". -/
theorem dropGitSuffix_append (a : List Char) :
    dropGitSuffix (a ++ ".git".toList) = a := by
  unfold dropGitSuffix
  rw [isSuffixOf_self_append]
  simp only [if_true]
  exact List.take_left' (by simp)

/-- Slash-free owner and repo make the combined identifier contain
exactly one slash. -/
theorem count_slash_pair (owner repo : List Char)
    (ho : ('/' : Char) ∉ owner) (hr : ('/' : Char) ∉ repo) :
    List.count '/' (owner ++ '/' :: repo) = 1 := by
  simp [List.count_append, List.count_cons,
    List.count_eq_zero.mpr ho, List.count_eq_zero.mpr hr]

/-- Bumping a verdict counter raises the counter total by one. -/
theorem totalCount_bump (c : WalkCounts) (v : Verdict) :
    totalCount (bump c v) = totalCount c + 1 := by
  cases v <;> simp [bump, totalCount] <;> omega

/-- The ignore verdict over concatenated pattern lists is the disjunction
of the verdicts of the parts. -/
theorem shouldIgnorePath_append (path : List Char) (a b : List (List Char)) :
    shouldIgnorePath path (a ++ b) =
      (shouldIgnorePath path a || shouldIgnorePath path b) := by
  simp [shouldIgnorePath]

/-- The exact-rational threshold comparison of isValidTextContent, for
non-empty content, is the integer comparison of one hundred times the
null count against the length. -/
theorem isValidTextContent_iff (content : List Char) (h : content ≠ []) :
    isValidTextContent content = true ↔
      100 * List.count nullChar content < content.length := by
  have hlen : 0 < content.length := List.length_pos.mpr h
  unfold isValidTextContent nullByteRatio
  rw [if_neg (by omega), decide_eq_true_eq,
    div_lt_div_iff₀ (by exact_mod_cast hlen) (by norm_num)]
  constructor
  · intro hh
    have hq : (100 * List.count nullChar content : ℚ) < content.length := by
      push_cast at hh ⊢
      linarith
    exact_mod_cast hq
  · intro hh
    have hq : (100 * List.count nullChar content : ℚ) < content.length := by
      exact_mod_cast hh
    push_cast at hq ⊢
    linarith

/-- C1: for every non-empty content string, isValidTextContent accepts
exactly when the null-byte ratio is strictly below 1/100, i.e. when one
hundred times the null count is below the length; the 1000-character
buffer with ten null bytes is rejected and the one with nine passes. -/
theorem nullRatioThreshold (content : List Char) (h : content ≠ []) :
    (isValidTextContent content = true ↔
      100 * List.count nullChar content < content.length) ∧
    isValidTextContent (List.replicate 10 nullChar ++ List.replicate 990 'a') = false ∧
    isValidTextContent (List.replicate 9 nullChar ++ List.replicate 991 'a') = true := by
  have e1 : (nullChar == nullChar) = true := by decide
  have e2 : ¬ (('a' == nullChar) = true) := by decide
  refine ⟨isValidTextContent_iff content h, ?_, ?_⟩
  · cases hb : isValidTextContent (List.replicate 10 nullChar ++ List.replicate 990 'a') with
    | false => rfl
    | true =>
      exfalso
      have hne : (List.replicate 10 nullChar ++ List.replicate 990 'a') ≠ ([] : List Char) := by
        apply List.ne_nil_of_length_pos
        rw [List.length_append, List.length_replicate, List.length_replicate]
        omega
      have h2 := (isValidTextContent_iff _ hne).mp hb
      rw [List.count_append, List.count_replicate, List.count_replicate, if_pos e1, if_neg e2,
        List.length_append, List.length_replicate, List.length_replicate] at h2
      omega
  · cases hb : isValidTextContent (List.replicate 9 nullChar ++ List.replicate 991 'a') with
    | true => rfl
    | false =>
      exfalso
      have h2 := (isValidTextContent_iff
        (List.replicate 9 nullChar ++ List.replicate 991 'a') (by
          apply List.ne_nil_of_length_pos
          rw [List.length_append, List.length_replicate, List.length_replicate]
          omega)).not.mp (by rw [hb]; decide)
      rw [List.count_append, List.count_replicate, List.count_replicate, if_pos e1, if_neg e2,
        List.length_append, List.length_replicate, List.length_replicate] at h2
      omega

/-- Witness for C1 at the one-character content "a". -/
theorem nullRatioThreshold_wit :
    isValidTextContent ['a'] = true ↔
      100 * List.count nullChar ['a'] < (['a'] : List Char).length :=
  (nullRatioThreshold ['a'] (by decide)).1

/-- C2 counterexample: the string "a/b/c" has no host marker and two
slashes, so by the claim parsing should fail, yet the parser accepts it
and returns owner "a" and repo "b". -/
theorem multiSlashParses :
    containsSeq ("github.com".toList) ("a/b/c".toList) = false ∧
    List.count '/' ("a/b/c".toList) = 2 ∧
    parseRepoIdentifier ("a/b/c".toList) = some ⟨"a".toList, "b".toList⟩ := by
  decide

/-- C2 (amended): for a string without the host marker, parsing fails
exactly when it has no slash at all or one of the first two slash-split
segments is empty; with two or more slashes and non-empty first two
segments the parser succeeds on those segments. -/
theorem nonUrlParseFailureIff (s : List Char)
    (h : containsSeq ("github.com".toList) s = false) :
    parseRepoIdentifier s = none ↔
      (('/' : Char) ∉ s ∨ (splitOnChar '/' s).headD [] = [] ∨
        ((splitOnChar '/' s).drop 1).headD [] = []) := by
  unfold parseRepoIdentifier
  rw [h]
  simp only [Bool.false_eq_true, if_false]
  by_cases hs : ('/' : Char) ∈ s
  · rw [if_pos hs]
    by_cases hcond : ((splitOnChar '/' s).headD [] ≠ [] ∧
        ((splitOnChar '/' s).drop 1).headD [] ≠ [])
    · rw [if_pos hcond]
      constructor
      · intro hnone
        exact absurd hnone (by simp)
      · intro hdisj
        rcases hdisj with h1 | h1 | h1
        · exact absurd hs h1
        · exact absurd h1 hcond.1
        · exact absurd h1 hcond.2
    · rw [if_neg hcond]
      push_neg at hcond
      constructor
      · intro _
        by_cases hA : (splitOnChar '/' s).headD [] = []
        · exact Or.inr (Or.inl hA)
        · exact Or.inr (Or.inr (hcond hA))
      · intro _
        rfl
  · rw [if_neg hs]
    exact ⟨fun _ => Or.inl hs, fun _ => rfl⟩

/-- Witness for C2 at the slash-free string "ab". -/
theorem nonUrlParseFailureIff_wit :
    parseRepoIdentifier ("ab".toList) = none ↔
      (('/' : Char) ∉ ("ab".toList) ∨ (splitOnChar '/' ("ab".toList)).headD [] = [] ∨
        ((splitOnChar '/' ("ab".toList)).drop 1).headD [] = []) :=
  nonUrlParseFailureIff ("ab".toList) (by decide)

/-- C6: the ignore verdict of shouldIgnorePath is the same for every
concatenation order of the three pattern sources, and a path is excluded
exactly when some pattern of the combined set matches it; idempotence is
immediate since the verdict is a pure function of its inputs. -/
theorem ignoreOrderIndependent (path : List Char) (d c u : List (List Char)) :
    (shouldIgnorePath path (d ++ c ++ u) = shouldIgnorePath path (c ++ d ++ u) ∧
     shouldIgnorePath path (d ++ c ++ u) = shouldIgnorePath path (d ++ u ++ c) ∧
     shouldIgnorePath path (d ++ c ++ u) = shouldIgnorePath path (u ++ c ++ d) ∧
     shouldIgnorePath path (d ++ c ++ u) = shouldIgnorePath path (c ++ u ++ d) ∧
     shouldIgnorePath path (d ++ c ++ u) = shouldIgnorePath path (u ++ d ++ c)) ∧
    (shouldIgnorePath path (d ++ c ++ u) = true ↔
      ∃ p ∈ d ++ c ++ u, minimatch path p = true) := by
  constructor
  · refine ⟨?_, ?_, ?_, ?_, ?_⟩ <;>
      simp only [shouldIgnorePath_append] <;>
      simp [Bool.or_comm, Bool.or_assoc, Bool.or_left_comm]
  · simp only [shouldIgnorePath, List.any_eq_true, List.mem_append]

/-- C8: splitting a file body on bare newline or carriage-return-newline
peels one line at a time, and the example content yields the four
paragraphs a, b, single space, c. -/
theorem lineSplitParagraphs :
    (∀ a b : List Char, ('\r' ∉ a ∧ '\n' ∉ a) →
      splitLines (a ++ '\r' :: '\n' :: b) = a :: splitLines b ∧
      splitLines (a ++ '\n' :: b) = a :: splitLines b) ∧
    addFileContent ("a\r\nb\n\nc".toList) = [['a'], ['b'], [' '], ['c']] := by
  constructor
  · intro a
    induction a with
    | nil =>
      intro b _
      constructor <;> simp [splitLines]
    | cons c cs ih =>
      intro b h
      have hcr : c ≠ '\r' := by rintro rfl; exact h.1 (List.mem_cons_self _ _)
      have hcn : c ≠ '\n' := by rintro rfl; exact h.2 (List.mem_cons_self _ _)
      have hcs : ('\r' ∉ cs ∧ '\n' ∉ cs) :=
        ⟨fun hm => h.1 (List.mem_cons_of_mem _ hm),
         fun hm => h.2 (List.mem_cons_of_mem _ hm)⟩
      obtain ⟨ih1, ih2⟩ := ih b hcs
      constructor
      · simp [splitLines, hcn, hcr, ih1, consHead]
      · simp [splitLines, hcn, hcr, ih2, consHead]
  · decide

/-- Witness for C8 at the one-character line "x". -/
theorem lineSplitParagraphs_wit :
    splitLines (['x'] ++ '\r' :: '\n' :: []) = ['x'] :: splitLines [] ∧
    splitLines (['x'] ++ '\n' :: []) = ['x'] :: splitLines [] :=
  lineSplitParagraphs.1 ['x'] [] (by decide)

/-- C3: the five counters of the walk partition the non-directory
entries: their sum equals the number of non-directory entries, a
directory entry leaves the whole walk state untouched, and each
non-directory entry bumps exactly the one counter of its verdict. -/
theorem walkCountersPartition (patterns : List (List Char)) (repo branch : List Char)
    (entries : List ZipEntry) :
    totalCount (processEntries patterns repo branch entries).1 =
      (entries.filter (fun e => !e.isDirectory)).length ∧
    (∀ e : ZipEntry, e.isDirectory = true →
      processEntries patterns repo branch (e :: entries) =
        processEntries patterns repo branch entries) ∧
    (∀ e : ZipEntry, e.isDirectory = false →
      (processEntries patterns repo branch (e :: entries)).1 =
        bump (processEntries patterns repo branch entries).1
          (processEntry patterns repo branch e).1) := by
  refine ⟨?_, ?_, ?_⟩
  · induction entries with
    | nil => rfl
    | cons e es ih =>
      cases hd : e.isDirectory with
      | true => simp [processEntries, hd, ih]
      | false =>
        simp [processEntries, hd, totalCount_bump, ih]
  · intro e he
    simp [processEntries, he]
  · intro e he
    simp [processEntries, he]

/-- Witness for C3 at a one-entry directory list and a one-entry file
list. -/
theorem walkCountersPartition_wit :
    processEntries [] ['r'] ['m'] (⟨['d'], true, Except.error ()⟩ :: []) =
      processEntries [] ['r'] ['m'] [] ∧
    (processEntries [] ['r'] ['m'] (⟨['f'], false, Except.ok ['x']⟩ :: [])).1 =
      bump (processEntries [] ['r'] ['m'] []).1
        (processEntry [] ['r'] ['m'] ⟨['f'], false, Except.ok ['x']⟩).1 :=
  ⟨(walkCountersPartition [] ['r'] ['m'] []).2.1 ⟨['d'], true, Except.error ()⟩ rfl,
   (walkCountersPartition [] ['r'] ['m'] []).2.2 ⟨['f'], false, Except.ok ['x']⟩ rfl⟩

/-- C4: an entry whose extraction or decoding fails, after surviving the
ignore and binary checks, is counted under the error counter and the
walk goes on: the outcome on the remaining entries is unchanged and no
failure escapes the walk. -/
theorem perFileErrorIsolation (patterns : List (List Char)) (repo branch : List Char)
    (e : ZipEntry) (es : List ZipEntry)
    (hdir : e.isDirectory = false)
    (hig : shouldIgnorePath (cleanPathOf repo branch e.entryName) patterns = false)
    (hbin : isBinaryFile (cleanPathOf repo branch e.entryName) = false)
    (herr : e.getData = Except.error ()) :
    (processEntries patterns repo branch (e :: es)).1 =
      bump (processEntries patterns repo branch es).1 Verdict.skippedByError ∧
    (processEntries patterns repo branch (e :: es)).2 =
      (processEntries patterns repo branch es).2 := by
  have hv : processEntry patterns repo branch e = (Verdict.skippedByError, none) := by
    simp [processEntry, hig, hbin, herr]
  constructor <;> simp [processEntries, hdir, hv]

/-- Witness for C4 at a text file entry whose extraction fails. -/
theorem perFileErrorIsolation_wit :
    (processEntries [] ['r'] ['m'] (⟨"r-m/a.txt".toList, false, Except.error ()⟩ :: [])).1 =
      bump (processEntries [] ['r'] ['m'] []).1 Verdict.skippedByError ∧
    (processEntries [] ['r'] ['m'] (⟨"r-m/a.txt".toList, false, Except.error ()⟩ :: [])).2 =
      (processEntries [] ['r'] ['m'] []).2 :=
  perFileErrorIsolation [] ['r'] ['m'] ⟨"r-m/a.txt".toList, false, Except.error ()⟩ []
    rfl (by decide) (by decide) rfl

/-- C5: for a file whose cleaned path carries a listed binary extension,
the walk verdict is independent of the file content, which is never
decoded, and when the file also survives the ignore patterns the verdict
is exactly the binary skip. -/
theorem binaryShortCircuit (patterns : List (List Char)) (repo branch name : List Char)
    (d1 d2 : Except Unit (List Char))
    (h : isBinaryFile (cleanPathOf repo branch name) = true) :
    processEntry patterns repo branch ⟨name, false, d1⟩ =
      processEntry patterns repo branch ⟨name, false, d2⟩ ∧
    (shouldIgnorePath (cleanPathOf repo branch name) patterns = false →
      (processEntry patterns repo branch ⟨name, false, d1⟩).1 = Verdict.skippedAsBinary) := by
  constructor
  · cases hig : shouldIgnorePath (cleanPathOf repo branch name) patterns <;>
      simp [processEntry, hig, h]
  · intro hig
    simp [processEntry, hig, h]

/-- Witness for C5 at a png file with plain ASCII content on one side
and a failing extraction on the other. -/
theorem binaryShortCircuit_wit :
    processEntry [] ['r'] ['m'] ⟨"r-m/logo.png".toList, false, Except.ok ("hello".toList)⟩ =
      processEntry [] ['r'] ['m'] ⟨"r-m/logo.png".toList, false, Except.error ()⟩ ∧
    (shouldIgnorePath (cleanPathOf ['r'] ['m'] ("r-m/logo.png".toList)) [] = false →
      (processEntry [] ['r'] ['m']
        ⟨"r-m/logo.png".toList, false, Except.ok ("hello".toList)⟩).1 =
          Verdict.skippedAsBinary) :=
  binaryShortCircuit [] ['r'] ['m'] ("r-m/logo.png".toList)
    (Except.ok ("hello".toList)) (Except.error ()) (by decide)

/-- C9: empty decoded content is rejected by isValidTextContent, because
the JS null-ratio division zero by zero yields NaN which is not below
the threshold, so an empty file surviving the ignore and binary checks
is counted under the invalid-text counter. -/
theorem emptyContentInvalidText (patterns : List (List Char)) (repo branch name : List Char)
    (es : List ZipEntry)
    (hig : shouldIgnorePath (cleanPathOf repo branch name) patterns = false)
    (hbin : isBinaryFile (cleanPathOf repo branch name) = false) :
    isValidTextContent [] = false ∧
    (processEntry patterns repo branch ⟨name, false, Except.ok []⟩).1 =
      Verdict.skippedAsInvalidText ∧
    (processEntries patterns repo branch
        (⟨name, false, Except.ok []⟩ :: es)).1.skippedFilesByValidation =
      (processEntries patterns repo branch es).1.skippedFilesByValidation + 1 := by
  have hval : isValidTextContent ([] : List Char) = false := rfl
  have hv : processEntry patterns repo branch ⟨name, false, Except.ok []⟩ =
      (Verdict.skippedAsInvalidText, none) := by
    simp [processEntry, hig, hbin, hval]
  refine ⟨hval, by simp [hv], ?_⟩
  simp [processEntries, hv, bump]

/-- Witness for C9 at an empty text file. -/
theorem emptyContentInvalidText_wit :
    isValidTextContent [] = false ∧
    (processEntry [] ['r'] ['m'] ⟨"r-m/a.txt".toList, false, Except.ok []⟩).1 =
      Verdict.skippedAsInvalidText ∧
    (processEntries [] ['r'] ['m']
        (⟨"r-m/a.txt".toList, false, Except.ok []⟩ :: [])).1.skippedFilesByValidation =
      (processEntries [] ['r'] ['m'] []).1.skippedFilesByValidation + 1 :=
  emptyContentInvalidText [] ['r'] ['m'] ("r-m/a.txt".toList) [] (by decide) (by decide)

/-- C7: for a well-formed owner and repo pair, the bare shorthand and the
full https URLs, with or without the www prefix and with or without a
trailing ".git", all parse to the identical owner-repo record. -/
theorem urlFormsAgree (owner repo : List Char)
    (how : owner ≠ []) (hre : repo ≠ [])
    (ho : ('/' : Char) ∉ owner) (hr : ('/' : Char) ∉ repo)
    (hg : (".git".toList).isSuffixOf repo = false) :
    parseRepoIdentifier (owner ++ '/' :: repo) = some ⟨owner, repo⟩ ∧
    parseRepoIdentifier (scheme2 ++ (owner ++ '/' :: repo)) = some ⟨owner, repo⟩ ∧
    parseRepoIdentifier (scheme1 ++ (owner ++ '/' :: repo)) = some ⟨owner, repo⟩ ∧
    parseRepoIdentifier (scheme2 ++ (owner ++ '/' :: repo) ++ ".git".toList) =
      some ⟨owner, repo⟩ ∧
    parseRepoIdentifier (scheme1 ++ (owner ++ '/' :: repo) ++ ".git".toList) =
      some ⟨owner, repo⟩ := by
  have hsplit : splitOnChar '/' (owner ++ '/' :: repo) = [owner, repo] := by
    rw [splitOnChar_append '/' owner repo ho, splitOnChar_of_not_mem '/' repo hr]
  have hgit : dropGitSuffix (owner ++ '/' :: repo) = owner ++ '/' :: repo := by
    unfold dropGitSuffix
    rw [gitSuffix_append_false owner repo hg]
    simp
  have hurl : dropUrlScheme (owner ++ '/' :: repo) = owner ++ '/' :: repo :=
    dropUrlScheme_noop _ (by rw [count_slash_pair owner repo ho hr]; omega)
  have hurlbranch : ∀ s : List Char,
      containsSeq ("github.com".toList) s = true →
      dropGitSuffix (dropUrlScheme s) = owner ++ '/' :: repo →
      parseRepoIdentifier s = some ⟨owner, repo⟩ := by
    intro s hin hds
    unfold parseRepoIdentifier
    rw [hds, hsplit, hin]
    simp
  refine ⟨?_, ?_, ?_, ?_, ?_⟩
  · cases hin : containsSeq ("github.com".toList) (owner ++ '/' :: repo) with
    | true =>
      exact hurlbranch _ hin (by rw [hurl]; exact hgit)
    | false =>
      have hmem : ('/' : Char) ∈ owner ++ '/' :: repo :=
        List.mem_append_right _ (List.mem_cons_self _ _)
      unfold parseRepoIdentifier
      rw [hsplit, hin]
      simp [hmem, how, hre]
  · exact hurlbranch _ rfl (by rw [dropUrlScheme_append2]; exact hgit)
  · exact hurlbranch _ rfl (by rw [dropUrlScheme_append1]; exact hgit)
  · exact hurlbranch _ rfl
      (by rw [List.append_assoc, dropUrlScheme_append2]; exact dropGitSuffix_append _)
  · exact hurlbranch _ rfl
      (by rw [List.append_assoc, dropUrlScheme_append1]; exact dropGitSuffix_append _)

/-- Witness for C7 at owner "o" and repo "r". -/
theorem urlFormsAgree_wit :
    parseRepoIdentifier (['o'] ++ '/' :: ['r']) = some ⟨['o'], ['r']⟩ ∧
    parseRepoIdentifier (scheme2 ++ (['o'] ++ '/' :: ['r'])) = some ⟨['o'], ['r']⟩ ∧
    parseRepoIdentifier (scheme1 ++ (['o'] ++ '/' :: ['r'])) = some ⟨['o'], ['r']⟩ ∧
    parseRepoIdentifier (scheme2 ++ (['o'] ++ '/' :: ['r']) ++ ".git".toList) =
      some ⟨['o'], ['r']⟩ ∧
    parseRepoIdentifier (scheme1 ++ (['o'] ++ '/' :: ['r']) ++ ".git".toList) =
      some ⟨['o'], ['r']⟩ :=
  urlFormsAgree ['o'] ['r'] (by decide) (by decide) (by decide) (by decide) (by decide)

/-- C10: a string of the shape github.com slash owner slash repo, which
contains the host marker but no protocol, takes the URL branch where the
anchored scheme regex strips nothing, so the parser returns the host as
the owner and the owner segment as the repo. -/
theorem noProtocolUrlBranch (owner repo : List Char)
    (ho : ('/' : Char) ∉ owner) (hr : ('/' : Char) ∉ repo)
    (hg : (".git".toList).isSuffixOf repo = false) :
    parseRepoIdentifier ("github.com/".toList ++ owner ++ '/' :: repo) =
      some ⟨"github.com".toList, owner⟩ := by
  have hin : containsSeq ("github.com".toList)
      ("github.com/".toList ++ owner ++ '/' :: repo) = true := rfl
  have hshape : "github.com/".toList ++ owner ++ '/' :: repo =
      "github.com".toList ++ '/' :: (owner ++ '/' :: repo) := by
    rw [show ("github.com/".toList) = "github.com".toList ++ ['/'] from rfl]
    simp [List.append_assoc]
  have hcg : List.count '/' ("github.com/".toList) = 1 := by decide
  have e : (('/' : Char) == '/') = true := by decide
  have hcount : List.count '/' ("github.com/".toList ++ owner ++ '/' :: repo) < 3 := by
    rw [List.count_append, List.count_append, hcg, List.count_eq_zero.mpr ho,
      List.count_cons, List.count_eq_zero.mpr hr, if_pos e]
    omega
  have hurl : dropUrlScheme ("github.com/".toList ++ owner ++ '/' :: repo) =
      "github.com/".toList ++ owner ++ '/' :: repo :=
    dropUrlScheme_noop _ hcount
  have hgit : dropGitSuffix ("github.com/".toList ++ owner ++ '/' :: repo) =
      "github.com/".toList ++ owner ++ '/' :: repo := by
    unfold dropGitSuffix
    rw [gitSuffix_append_false _ repo hg]
    simp
  have hsplit : splitOnChar '/' ("github.com/".toList ++ owner ++ '/' :: repo) =
      ["github.com".toList, owner, repo] := by
    rw [hshape, splitOnChar_append '/' _ _ (by decide),
      splitOnChar_append '/' owner repo ho, splitOnChar_of_not_mem '/' repo hr]
  unfold parseRepoIdentifier
  rw [hurl, hgit, hsplit, hin]
  simp

/-- Witness for C10 at owner "o" and repo "r". -/
theorem noProtocolUrlBranch_wit :
    parseRepoIdentifier ("github.com/".toList ++ ['o'] ++ '/' :: ['r']) =
      some ⟨"github.com".toList, ['o']⟩ :=
  noProtocolUrlBranch ['o'] ['r'] (by decide) (by decide) (by decide)

end Repo2Docx
